import Mathlib

/-!
Verification of the Walnut / Compyute neural-network framework specification.

The visible repository material is a README and two example notebooks; the
framework implementation itself (modules, Sequential, optimizers, trainer,
losses) is exercised there but not shown.  Following the spec, tensors are
modelled as rational vectors (shape = length), modules as stateful
forward/backward units that cache their input, and optimizers as in-place
updates of parameter/gradient pairs.
-/

namespace Walnut

/-- Parameters of a linear layer: `inF` input features, weight rows `w`
(one row per output feature), bias `b`. -/
structure LinearData where
  inF : Nat
  w : List (List ℚ)
  b : List ℚ
deriving DecidableEq, Repr

/-- Modelled from the spec: the differentiable layer kinds used by the
custom-model notebook (`nn.Linear`, `nn.ReLU`); the library implementation
is not part of the visible sources. -/
inductive Layer where
  | linear (p : LinearData)
  | relu
deriving DecidableEq, Repr

/-- Dot product of two rational vectors. -/
def dot (a b : List ℚ) : ℚ := (List.zipWith (· * ·) a b).sum

/-- Matrix–vector product, the matrix given as a list of rows. -/
def matvec (w : List (List ℚ)) (x : List ℚ) : List ℚ := w.map (fun r => dot r x)

/-- Transpose of a weight matrix with `n` columns (numpy keeps the column
count in the array shape even when there are zero rows, so `n` is explicit). -/
def transposeW (n : Nat) (w : List (List ℚ)) : List (List ℚ) :=
  (List.range n).map (fun j => w.map (fun r => r.getD j 0))

/-- Modelled from the spec: a layer's forward computation
(`forward(input) -> output`). -/
def Layer.fwd : Layer → List ℚ → List ℚ
  | Layer.linear p, x => List.zipWith (· + ·) (matvec p.w x) p.b
  | Layer.relu, x => x.map (fun v => max v 0)

/-- Modelled from the spec: a layer's input gradient
(`backward(output_gradient) -> input_gradient`), computed from the cached
forward input `x` and the output gradient `dy`. -/
def Layer.bwdIn : Layer → List ℚ → List ℚ → List ℚ
  | Layer.linear p, _, dy => matvec (transposeW p.inF p.w) dy
  | Layer.relu, x, dy => List.zipWith (fun a d => if 0 < a then d else 0) x dy

/-- Well-formedness of a layer for inputs of length `n`. -/
def Layer.accepts : Layer → Nat → Prop
  | Layer.linear p, n => n = p.inF ∧ p.b.length = p.w.length
  | Layer.relu, _ => True

/-- Modelled from the spec: a Module is a stateful unit holding its layer
(with learnable parameters), a training flag, and the activation cached by
the last forward pass. -/
structure Module where
  layer : Layer
  training : Bool
  cache : Option (List ℚ)
deriving DecidableEq, Repr

/-- A freshly constructed module: no forward pass has happened yet. -/
def Module.fresh (l : Layer) (b : Bool) : Module := ⟨l, b, none⟩

/-- Switch a module to inference mode (`model.inference()`). -/
def Module.inference (m : Module) : Module := { m with training := false }

/-- Switch a module to training mode (`model.training()`). -/
def Module.trainMode (m : Module) : Module := { m with training := true }

/-- Modelled from the spec: `forward` computes the output and, in training
mode, caches the state its `backward` will need; in inference mode caching
is skipped and the module is left untouched. -/
def Module.forward (m : Module) (x : List ℚ) : Module × List ℚ :=
  (if m.training then { m with cache := some x } else m, m.layer.fwd x)

/-- Modelled from the spec: `backward` uses the cached forward state to
return the input gradient; calling it without a prior matching forward is
surfaced as an immediate error to the caller. -/
def Module.backward (m : Module) (dy : List ℚ) : Except String (List ℚ) :=
  match m.cache with
  | none => Except.error "backward called before forward"
  | some x => Except.ok (m.layer.bwdIn x dy)

/-- Repeated forward calls, threading the module state. -/
def Module.forwardMany (m : Module) : List (List ℚ) → Module
  | [] => m
  | x :: xs => Module.forwardMany (m.forward x).1 xs

/-- Modelled from the spec: Sequential forward applies each module's
forward in order, threading the output of one into the input of the next,
and returns the updated module states and the final output. -/
def seqForward : List Module → List ℚ → List Module × List ℚ
  | [], x => ([], x)
  | m :: ms, x =>
    let r := m.forward x
    let rest := seqForward ms r.2
    (r.1 :: rest.1, rest.2)

/-- Modelled from the spec: Sequential backward applies each module's
backward in exactly the reverse order of forward, threading gradients
backward (the tail — the later modules — first, then the head). -/
def seqBackward : List Module → List ℚ → Except String (List ℚ)
  | [], dy => Except.ok dy
  | m :: ms, dy =>
    match seqBackward ms dy with
    | Except.ok d => m.backward d
    | Except.error e => Except.error e

/-- Run the backwards of a list of modules front to back, threading the
gradient. -/
def backwardChain : List Module → List ℚ → Except String (List ℚ)
  | [], d => Except.ok d
  | m :: ms, d =>
    match m.backward d with
    | Except.ok d2 => backwardChain ms d2
    | Except.error e => Except.error e

/-- A custom model's hand-written backward as in the notebook: each
sub-module's backward is invoked in the exact reverse order of the forward
invocations. -/
def customBackward (ms : List Module) (dy : List ℚ) : Except String (List ℚ) :=
  backwardChain ms.reverse dy

theorem backwardChain_append (l1 l2 : List Module) (d : List ℚ) :
    backwardChain (l1 ++ l2) d =
      match backwardChain l1 d with
      | Except.ok d2 => backwardChain l2 d2
      | Except.error e => Except.error e := by
  induction l1 generalizing d with
  | nil => rfl
  | cons m ms ih =>
    simp only [List.cons_append, backwardChain]
    cases m.backward d with
    | ok d2 => exact ih d2
    | error e => rfl

theorem customBackward_eq_seqBackward (ms : List Module) (dy : List ℚ) :
    customBackward ms dy = seqBackward ms dy := by
  induction ms generalizing dy with
  | nil => rfl
  | cons m ms ih =>
    unfold customBackward
    rw [List.reverse_cons, backwardChain_append]
    rw [show backwardChain ms.reverse dy = seqBackward ms dy from ih dy]
    simp only [seqBackward]
    cases seqBackward ms dy with
    | ok d =>
      show backwardChain [m] d = m.backward d
      cases h2 : m.backward d <;> simp [backwardChain, h2]
    | error e => rfl

/-- Claim C1: for any custom model whose hand-written backward invokes each
sub-module's backward in the exact reverse order of the forward invocations,
the input gradient returned by that backward equals the input gradient
produced by the default Sequential implementation composed of the same
modules, for every input and output gradient. -/
theorem claim1_custom_backward_equals_sequential
    (ms : List Module) (x dy : List ℚ) :
    customBackward (seqForward ms x).1 dy = seqBackward (seqForward ms x).1 dy :=
  customBackward_eq_seqBackward (seqForward ms x).1 dy

theorem length_matvec (w : List (List ℚ)) (x : List ℚ) :
    (matvec w x).length = w.length := List.length_map w _

theorem length_transposeW (n : Nat) (w : List (List ℚ)) :
    (transposeW n w).length = n := by
  simp [transposeW]

/-- Claim C2: for every Module, calling forward on an input tensor and then
backward with an output gradient whose shape matches the forward output's
shape returns an input gradient whose shape equals the shape of the
original input tensor. -/
theorem claim2_backward_grad_shape_matches_input
    (m : Module) (x dy : List ℚ)
    (ht : m.training = true)
    (ha : m.layer.accepts x.length)
    (hd : dy.length = ((m.forward x).2).length) :
    ∃ dx, ((m.forward x).1).backward dy = Except.ok dx ∧ dx.length = x.length := by
  refine ⟨m.layer.bwdIn x dy, ?_, ?_⟩
  · simp [Module.forward, Module.backward, ht]
  · cases hl : m.layer with
    | linear p =>
      rw [hl] at ha
      rw [ha.1]
      simp [Layer.bwdIn, length_matvec, length_transposeW]
    | relu =>
      simp only [Module.forward, hl, Layer.fwd, List.length_map] at hd
      simp [Layer.bwdIn, hd]

/-- Witness for C2 at a concrete linear layer and input. -/
theorem claim2_witness :
    ∃ dx, ((Module.mk (Layer.linear ⟨2, [[1, 0], [0, 1], [2, 3]], [0, 0, 0]⟩)
        true none).forward [1, 2]).1.backward [1, 1, 1] = Except.ok dx ∧
      dx.length = ([1, 2] : List ℚ).length :=
  claim2_backward_grad_shape_matches_input
    (Module.mk (Layer.linear ⟨2, [[1, 0], [0, 1], [2, 3]], [0, 0, 0]⟩) true none)
    [1, 2] [1, 1, 1] rfl (by constructor <;> rfl) (by rfl)

/-- Claim C4: calling a Module's backward without a prior matching forward
is erroneous: it is surfaced as an immediate error to the caller. -/
theorem claim4_backward_before_forward_errors (l : Layer) (b : Bool) (dy : List ℚ) :
    (Module.fresh l b).backward dy = Except.error "backward called before forward" :=
  rfl

theorem forwardMany_of_not_training :
    ∀ (xs : List (List ℚ)) (m : Module), m.training = false →
      m.forwardMany xs = m := by
  intro xs
  induction xs with
  | nil => intro m _; rfl
  | cons x xs ih =>
    intro m h
    show Module.forwardMany (m.forward x).1 xs = m
    have hfix : (m.forward x).1 = m := by simp [Module.forward, h]
    rw [hfix]
    exact ih m h

/-- Claim C8: in inference mode a forward pass skips caching and performs
no parameter updates — any number of forward calls leaves the module (in
particular every parameter tensor) unchanged — whereas training mode caches
the intermediate state. -/
theorem claim8_inference_forward_no_mutation
    (m : Module) (xs : List (List ℚ)) (x : List ℚ) :
    (m.inference).forwardMany xs = m.inference ∧
      ((m.trainMode).forward x).1.cache = some x :=
  ⟨forwardMany_of_not_training xs m.inference rfl, rfl⟩

/-- Claim C9: backward is only available when the training flag was set
before the forward pass: with `training = true` the forward pass defines a
backward function, while a module left in inference mode has none. -/
theorem claim9_backward_requires_training_mode (l : Layer) (x dy : List ℚ) :
    ((Module.fresh l true).forward x).1.backward dy = Except.ok (l.bwdIn x dy) ∧
      ((Module.fresh l false).forward x).1.backward dy =
        Except.error "backward called before forward" :=
  ⟨rfl, rfl⟩

/-- Modelled from the spec: a parameter tensor with its associated gradient
slot. -/
structure Param where
  value : List ℚ
  grad : List ℚ
deriving DecidableEq, Repr

/-- Modelled from the spec: explicit gradient reset (`optim.reset_grads()`)
zeroes the gradient slot of every parameter. -/
def resetGrads (ps : List Param) : List Param :=
  ps.map (fun p => { p with grad := p.value.map (fun _ => 0) })

/-- Modelled from the spec: gradients are accumulated additively into a
parameter's gradient slot. -/
def accumGrad (p : Param) (c : List ℚ) : Param :=
  { p with grad := List.zipWith (· + ·) p.grad c }

/-- Modelled from the spec: SGD optimizer state (`nn.optimizers.SGD` with
learning rate, momentum and nesterov options); `velocities` is the internal
per-parameter momentum buffer. -/
structure SGD where
  lr : ℚ
  momentum : ℚ
  nesterov : Bool
  velocities : List (List ℚ)
deriving DecidableEq, Repr

/-- One SGD parameter update: the velocity accumulates the gradient, the
value moves against the (possibly nesterov-corrected) direction, and the
gradient slot is left untouched. -/
def sgdUpdateParam (lr mu : ℚ) (nest : Bool) (p : Param) (v : List ℚ) :
    Param × List ℚ :=
  let v2 := List.zipWith (fun vi gi => mu * vi + gi) v p.grad
  let d := if nest then List.zipWith (fun gi vi => gi + mu * vi) p.grad v2 else v2
  ({ p with value := List.zipWith (fun pi di => pi - lr * di) p.value d }, v2)

/-- Modelled from the spec: an SGD step updates each parameter in place
from its accumulated gradient; it does not reset gradients. -/
def sgdStep (st : SGD) (ps : List Param) : SGD × List Param :=
  let upd := (ps.zip st.velocities).map
    (fun pv => sgdUpdateParam st.lr st.momentum st.nesterov pv.1 pv.2)
  ({ st with velocities := upd.map Prod.snd }, upd.map Prod.fst)

/-- A freshly constructed SGD optimizer: all momentum buffers are zero. -/
def SGD.fresh (lr mu : ℚ) (nest : Bool) (ps : List Param) : SGD :=
  ⟨lr, mu, nest, ps.map (fun p => p.value.map (fun _ => 0))⟩

/-- Modelled from the spec: Adam optimizer state (`nn.optimizers.Adam`);
`ms` and `vs` are the internal first/second moment buffers and `t` the step
counter. -/
structure Adam where
  lr : ℚ
  beta1 : ℚ
  beta2 : ℚ
  eps : ℚ
  t : Nat
  ms : List (List ℚ)
  vs : List (List ℚ)
deriving DecidableEq, Repr

/-- One Adam parameter update with bias-corrected moment estimates; the
square root is taken as a parameter since the numeric kernel is external.
The gradient slot is left untouched. -/
def adamUpdateParam (sqrt : ℚ → ℚ) (lr b1 b2 eps : ℚ) (t : Nat)
    (p : Param) (m v : List ℚ) : Param × List ℚ × List ℚ :=
  let mNew := List.zipWith (fun mi gi => b1 * mi + (1 - b1) * gi) m p.grad
  let vNew := List.zipWith (fun vi gi => b2 * vi + (1 - b2) * gi ^ 2) v p.grad
  let mHat := mNew.map (fun mi => mi / (1 - b1 ^ t))
  let vHat := vNew.map (fun vi => vi / (1 - b2 ^ t))
  let upd := List.zipWith (fun mi vi => lr * mi / ( sqrt vi + eps)) mHat vHat
  ({ p with value := List.zipWith (fun pi ui => pi - ui) p.value upd }, mNew, vNew)

/-- Modelled from the spec: an Adam step updates each parameter in place
from its accumulated gradient; it does not reset gradients. -/
def adamStep (sqrt : ℚ → ℚ) (st : Adam) (ps : List Param) : Adam × List Param :=
  let t2 := st.t + 1
  let upd := (ps.zip (st.ms.zip st.vs)).map
    (fun pmv => adamUpdateParam sqrt st.lr st.beta1 st.beta2 st.eps t2
      pmv.1 pmv.2.1 pmv.2.2)
  ({ st with t := t2, ms := upd.map (fun r => r.2.1), vs := upd.map (fun r => r.2.2) },
    upd.map (fun r => r.1))

/-- A freshly constructed Adam optimizer: both moment buffers are zero. -/
def Adam.fresh (lr b1 b2 eps : ℚ) (ps : List Param) : Adam :=
  ⟨lr, b1, b2, eps, 0, ps.map (fun p => p.value.map (fun _ => 0)),
    ps.map (fun p => p.value.map (fun _ => 0))⟩

theorem zipWith_add_map_zero (l c : List ℚ) (h : c.length = l.length) :
    List.zipWith (· + ·) (l.map (fun _ => (0 : ℚ))) c = c := by
  induction l generalizing c with
  | nil =>
    cases c with
    | nil => rfl
    | cons a c => simp at h
  | cons a l ih =>
    cases c with
    | nil => simp at h
    | cons b c =>
      simp only [List.length_cons, Nat.succ.injEq] at h
      show (0 + b) :: List.zipWith (· + ·) (l.map (fun _ => (0 : ℚ))) c = b :: c
      rw [zero_add, ih c h]

/-- Claim C5: after an optimizer step followed by an explicit gradient
reset, every parameter's gradient slot is zero, so the gradients
accumulated by the next backward pass start from zero with no leftover
contribution. -/
theorem claim5_reset_zeroes_grads (st : SGD) (ps : List Param) :
    (∀ p ∈ resetGrads (sgdStep st ps).2, ∀ g ∈ p.grad, g = 0) ∧
      (∀ p ∈ resetGrads (sgdStep st ps).2, ∀ c : List ℚ,
        c.length = p.value.length → (accumGrad p c).grad = c) := by
  constructor
  · intro p hp g hg
    simp only [resetGrads, List.mem_map] at hp
    obtain ⟨q, _, hq⟩ := hp
    rw [show p = { q with grad := q.value.map (fun _ => 0) } from hq.symm] at hg
    simp only [List.mem_map] at hg
    obtain ⟨_, _, hz⟩ := hg
    exact hz.symm
  · intro p hp c hc
    simp only [resetGrads, List.mem_map] at hp
    obtain ⟨q, _, hq⟩ := hp
    rw [show p = { q with grad := q.value.map (fun _ => 0) } from hq.symm]
    rw [show p = { q with grad := q.value.map (fun _ => 0) } from hq.symm] at hc
    exact zipWith_add_map_zero q.value c hc

/-- Witness for C5: a concrete step-then-reset followed by an accumulation. -/
theorem claim5_witness :
    (accumGrad ⟨[-1], [0]⟩ [5]).grad = [5] :=
  (claim5_reset_zeroes_grads (SGD.fresh 1 0 false [⟨[1], [2]⟩]) [⟨[1], [2]⟩]).2
    ⟨[-1], [0]⟩ (by norm_num [resetGrads, sgdStep, sgdUpdateParam, SGD.fresh])
    [5] (by norm_num)

theorem sgd_map_grad_aux (lr mu : ℚ) (nest : Bool) :
    ∀ (ps : List Param) (vs : List (List ℚ)), vs.length = ps.length →
      ((((ps.zip vs).map
          (fun pv => sgdUpdateParam lr mu nest pv.1 pv.2)).map Prod.fst).map
        Param.grad) = ps.map Param.grad := by
  intro ps
  induction ps with
  | nil => intro vs _; rfl
  | cons p ps ih =>
    intro vs h
    cases vs with
    | nil => simp at h
    | cons v vs =>
      simp only [List.length_cons, Nat.succ.injEq] at h
      simp only [List.zip_cons_cons, List.map_cons]
      rw [ih vs h]
      rfl

theorem adam_map_grad_aux (sq : ℚ → ℚ) (lr b1 b2 eps : ℚ) (t : Nat) :
    ∀ (ps : List Param) (ms vs : List (List ℚ)),
      ms.length = ps.length → vs.length = ps.length →
      ((((ps.zip (ms.zip vs)).map
          (fun pmv => adamUpdateParam sq lr b1 b2 eps t pmv.1 pmv.2.1 pmv.2.2)).map
        (fun r => r.1)).map Param.grad) = ps.map Param.grad := by
  intro ps
  induction ps with
  | nil => intro ms vs _ _; rfl
  | cons p ps ih =>
    intro ms vs hm hv
    cases ms with
    | nil => simp at hm
    | cons m ms =>
      cases vs with
      | nil => simp at hv
      | cons v vs =>
        simp only [List.length_cons, Nat.succ.injEq] at hm hv
        simp only [List.zip_cons_cons, List.map_cons]
        rw [ih ms vs hm hv]
        rfl

/-- Claim C6: an optimizer step leaves every parameter's gradient slot
unchanged — it mutates only the parameter values and its own internal
state; gradients are cleared only by the separate explicit reset. -/
theorem claim6_step_preserves_grads
    (st : SGD) (ast : Adam) (sq : ℚ → ℚ) (ps : List Param)
    (h1 : st.velocities.length = ps.length)
    (h2 : ast.ms.length = ps.length) (h3 : ast.vs.length = ps.length) :
    (sgdStep st ps).2.map Param.grad = ps.map Param.grad ∧
      (adamStep sq ast ps).2.map Param.grad = ps.map Param.grad := by
  constructor
  · show (((ps.zip st.velocities).map
        (fun pv => sgdUpdateParam st.lr st.momentum st.nesterov pv.1 pv.2)).map
      Prod.fst).map Param.grad = ps.map Param.grad
    exact sgd_map_grad_aux st.lr st.momentum st.nesterov ps st.velocities h1
  · show (((ps.zip (ast.ms.zip ast.vs)).map
        (fun pmv => adamUpdateParam sq ast.lr ast.beta1 ast.beta2 ast.eps (ast.t + 1)
          pmv.1 pmv.2.1 pmv.2.2)).map (fun r => r.1)).map Param.grad = ps.map Param.grad
    exact adam_map_grad_aux sq ast.lr ast.beta1 ast.beta2 ast.eps (ast.t + 1)
      ps ast.ms ast.vs h2 h3

/-- Witness for C6 at concrete optimizer states and parameters. -/
theorem claim6_witness :
    (sgdStep ⟨1, 1/2, true, [[1]]⟩ [⟨[2], [3]⟩]).2.map Param.grad =
        ([⟨[2], [3]⟩] : List Param).map Param.grad ∧
      (adamStep (fun q => q) ⟨1, 1/2, 1/2, 1, 0, [[0]], [[0]]⟩
          [⟨[2], [3]⟩]).2.map Param.grad =
        ([⟨[2], [3]⟩] : List Param).map Param.grad :=
  claim6_step_preserves_grads ⟨1, 1/2, true, [[1]]⟩
    ⟨1, 1/2, 1/2, 1, 0, [[0]], [[0]]⟩ (fun q => q) [⟨[2], [3]⟩] rfl rfl rfl

/-- Claim C7 fails as stated: with a nonzero internal momentum buffer, an
SGD step moves the parameter even though every accumulated gradient is
zero. -/
theorem claim7_counterexample :
    (∀ p ∈ ([⟨[1], [0]⟩] : List Param), ∀ g ∈ p.grad, g = 0) ∧
      (sgdStep ⟨1, 1/2, false, [[1]]⟩ [⟨[1], [0]⟩]).2.map Param.value ≠
        ([⟨[1], [0]⟩] : List Param).map Param.value := by
  constructor
  · intro p hp g hg
    rw [List.mem_singleton] at hp
    rw [hp] at hg
    rw [List.mem_singleton] at hg
    exact hg
  · intro hEq
    rw [show (sgdStep ⟨1, 1/2, false, [[1]]⟩ [⟨[1], [0]⟩]).2.map Param.value =
        [[(1 : ℚ) - 1 * (1 / 2 * 1 + 0)]] from rfl] at hEq
    simp only [List.map_cons, List.map_nil] at hEq
    norm_num at hEq

theorem map_const_zero (l : List ℚ) :
    l.map (fun _ => (0 : ℚ)) = List.replicate l.length 0 := by
  induction l with
  | nil => rfl
  | cons a l ih => simp [List.replicate_succ, ih]

theorem zipWith_replicate_both (f : ℚ → ℚ → ℚ) (n : Nat) (a b : ℚ) :
    List.zipWith f (List.replicate n a) (List.replicate n b) =
      List.replicate n (f a b) := by
  induction n with
  | zero => rfl
  | succ n ih => simp [List.replicate_succ, ih]

theorem zipWith_replicate_len (f : ℚ → ℚ → ℚ) (l : List ℚ) (c : ℚ) :
    List.zipWith f l (List.replicate l.length c) = l.map (fun a => f a c) := by
  induction l with
  | nil => rfl
  | cons a l ih => simp [List.replicate_succ, ih]

theorem sgd_fresh_zero_grad (lr mu : ℚ) (nest : Bool) (p : Param)
    (hg : ∀ g ∈ p.grad, g = 0) (hl : p.grad.length = p.value.length) :
    (sgdUpdateParam lr mu nest p (p.value.map fun _ => 0)).1.value = p.value := by
  have hrep : p.grad = List.replicate p.value.length 0 := by
    rw [← hl]
    exact List.eq_replicate_of_mem hg
  simp only [sgdUpdateParam, map_const_zero, hrep, zipWith_replicate_both,
    mul_zero, add_zero, zero_add, ite_self, zipWith_replicate_len, sub_zero]
  simp

theorem adam_fresh_zero_grad (sq : ℚ → ℚ) (lr b1 b2 eps : ℚ) (t : Nat) (p : Param)
    (hg : ∀ g ∈ p.grad, g = 0) (hl : p.grad.length = p.value.length) :
    (adamUpdateParam sq lr b1 b2 eps t p (p.value.map fun _ => 0)
      (p.value.map fun _ => 0)).1.value = p.value := by
  have hrep : p.grad = List.replicate p.value.length 0 := by
    rw [← hl]
    exact List.eq_replicate_of_mem hg
  simp only [adamUpdateParam, map_const_zero, hrep, zipWith_replicate_both,
    mul_zero, zero_mul, add_zero, zero_add, zero_pow, List.map_replicate,
    zero_div, zipWith_replicate_len, sub_zero]
  simp

theorem sgd_fresh_values_aux (lr mu : ℚ) (nest : Bool) :
    ∀ ps : List Param, (∀ p ∈ ps, ∀ g ∈ p.grad, g = 0) →
      (∀ p ∈ ps, p.grad.length = p.value.length) →
      ((((ps.zip (ps.map fun p => p.value.map fun _ => (0 : ℚ))).map
          (fun pv => sgdUpdateParam lr mu nest pv.1 pv.2)).map Prod.fst).map
        Param.value) = ps.map Param.value := by
  intro ps
  induction ps with
  | nil => intro _ _; rfl
  | cons p ps ih =>
    intro hg hl
    simp only [List.map_cons, List.zip_cons_cons]
    rw [ih (fun q hq => hg q (List.mem_cons_of_mem p hq))
        (fun q hq => hl q (List.mem_cons_of_mem p hq))]
    rw [sgd_fresh_zero_grad lr mu nest p (hg p (List.mem_cons_self p ps))
        (hl p (List.mem_cons_self p ps))]

theorem adam_fresh_values_aux (sq : ℚ → ℚ) (lr b1 b2 eps : ℚ) (t : Nat) :
    ∀ ps : List Param, (∀ p ∈ ps, ∀ g ∈ p.grad, g = 0) →
      (∀ p ∈ ps, p.grad.length = p.value.length) →
      ((((ps.zip ((ps.map fun p => p.value.map fun _ => (0 : ℚ)).zip
            (ps.map fun p => p.value.map fun _ => (0 : ℚ)))).map
          (fun pmv => adamUpdateParam sq lr b1 b2 eps t pmv.1 pmv.2.1 pmv.2.2)).map
        (fun r => r.1)).map Param.value) = ps.map Param.value := by
  intro ps
  induction ps with
  | nil => intro _ _; rfl
  | cons p ps ih =>
    intro hg hl
    simp only [List.map_cons, List.zip_cons_cons]
    rw [ih (fun q hq => hg q (List.mem_cons_of_mem p hq))
        (fun q hq => hl q (List.mem_cons_of_mem p hq))]
    rw [adam_fresh_zero_grad sq lr b1 b2 eps t p (hg p (List.mem_cons_self p ps))
        (hl p (List.mem_cons_self p ps))]

/-- Claim C7 as amended: for an optimizer starting from freshly initialized
internal state (all momentum/moment buffers zero) — SGD with any momentum
and nesterov setting, and Adam — if all accumulated gradients are zero then
a step leaves every parameter tensor unchanged. -/
theorem claim7_amended_fresh_state_noop
    (lr mu : ℚ) (nest : Bool) (alr b1 b2 eps : ℚ) (sq : ℚ → ℚ) (ps : List Param)
    (hg : ∀ p ∈ ps, ∀ g ∈ p.grad, g = 0)
    (hl : ∀ p ∈ ps, p.grad.length = p.value.length) :
    (sgdStep (SGD.fresh lr mu nest ps) ps).2.map Param.value = ps.map Param.value ∧
      (adamStep sq (Adam.fresh alr b1 b2 eps ps) ps).2.map Param.value =
        ps.map Param.value := by
  constructor
  · exact sgd_fresh_values_aux lr mu nest ps hg hl
  · exact adam_fresh_values_aux sq alr b1 b2 eps 1 ps hg hl

/-- Witness for the amended C7 at concrete optimizers and parameters. -/
theorem claim7_witness :
    (sgdStep (SGD.fresh 1 (1/2) true [⟨[3], [0]⟩]) [⟨[3], [0]⟩]).2.map Param.value =
        ([⟨[3], [0]⟩] : List Param).map Param.value ∧
      (adamStep (fun q => q) (Adam.fresh 1 (1/2) (1/2) 1 [⟨[3], [0]⟩])
          [⟨[3], [0]⟩]).2.map Param.value =
        ([⟨[3], [0]⟩] : List Param).map Param.value :=
  claim7_amended_fresh_state_noop 1 (1/2) true 1 (1/2) (1/2) 1 (fun q => q)
    [⟨[3], [0]⟩]
    (by intro p hp g hg2
        rw [List.mem_singleton] at hp
        rw [hp] at hg2
        rw [List.mem_singleton] at hg2
        exact hg2)
    (by intro p hp
        rw [List.mem_singleton] at hp
        rw [hp]
        rfl)


/-- Mean-squared-error value over a (prediction, target) pair. -/
def mseValue (p t : List ℚ) : ℚ :=
  ((List.zipWith (fun a b => (a - b) ^ 2) p t).sum) / (p.length : ℚ)

/-- Gradient of the mean squared error with respect to the prediction. -/
def mseGrad (p t : List ℚ) : List ℚ :=
  List.zipWith (fun a b => 2 * (a - b) / ((p.length : ℚ))) p t

/-- Modelled from the spec: a loss function object (the `"mse"` loss of the
LSTM notebook) caching the most recent (prediction, target) evaluation. -/
structure MSELoss where
  cache : Option (List ℚ × List ℚ)
deriving DecidableEq, Repr

/-- Modelled from the spec: evaluating the loss on a (prediction, target)
pair caches that pair and returns the loss value. -/
def MSELoss.eval (_L : MSELoss) (p t : List ℚ) : MSELoss × ℚ :=
  (⟨some (p, t)⟩, mseValue p t)

/-- Modelled from the spec: the loss backward takes no output-gradient
argument; it produces the initial gradient of the backward chain from the
state cached by the most recent loss evaluation. -/
def MSELoss.backward (L : MSELoss) : Except String (List ℚ) :=
  match L.cache with
  | none => Except.error "loss backward called before loss evaluation"
  | some pt => Except.ok (mseGrad pt.1 pt.2)

/-- Claim C10: the loss backward, which takes no output-gradient argument,
returns the gradient determined by the last (prediction, target) pair
passed to the loss, whatever was evaluated before. -/
theorem claim10_loss_backward_uses_last_eval
    (L : MSELoss) (p1 t1 p2 t2 : List ℚ) :
    (((L.eval p1 t1).1).eval p2 t2).1.backward = Except.ok (mseGrad p2 t2) ∧
      ((L.eval p2 t2).1).backward = Except.ok (mseGrad p2 t2) :=
  ⟨rfl, rfl⟩

/-- The five steps the trainer performs on every batch. -/
inductive TrainEvent where
  | forwardPass
  | lossComp
  | backwardPass
  | optimStep
  | gradReset
deriving DecidableEq, Repr

/-- Modelled from the spec: the state the Trainer drives — the model's
modules, the loss function, the optimizer and its parameters, plus the
prediction and input gradient of the current batch. -/
structure TrainerState where
  modules : List Module
  lossFn : MSELoss
  opt : SGD
  params : List Param
  pred : List ℚ
  inGrad : List ℚ
deriving Repr

/-- Run one phase of the batch loop, recording its event. -/
def runPhase (e : TrainEvent) (f : TrainerState → TrainerState)
    (s : TrainerState × List TrainEvent) : TrainerState × List TrainEvent :=
  (f s.1, s.2 ++ [e])

/-- Forward pass of the model on the batch input. -/
def forwardPhase (x : List ℚ) (s : TrainerState) : TrainerState :=
  { s with modules := (seqForward s.modules x).1, pred := (seqForward s.modules x).2 }

/-- Loss computation against the batch target. -/
def lossPhase (y : List ℚ) (s : TrainerState) : TrainerState :=
  { s with lossFn := (s.lossFn.eval s.pred y).1 }

/-- Backward pass: the loss backward seeds the model backward chain. -/
def backwardPhase (s : TrainerState) : TrainerState :=
  { s with inGrad :=
      match s.lossFn.backward with
      | Except.ok d0 =>
        match seqBackward s.modules d0 with
        | Except.ok d1 => d1
        | Except.error _ => []
      | Except.error _ => [] }

/-- Optimizer step on the trainer's parameters. -/
def stepPhase (s : TrainerState) : TrainerState :=
  { s with opt := (sgdStep s.opt s.params).1, params := (sgdStep s.opt s.params).2 }

/-- Explicit gradient reset after the step. -/
def resetPhase (s : TrainerState) : TrainerState :=
  { s with params := resetGrads s.params }

/-- The fixed per-batch schedule the spec prescribes. -/
def batchSchedule : List TrainEvent :=
  [TrainEvent.forwardPass, TrainEvent.lossComp, TrainEvent.backwardPass,
    TrainEvent.optimStep, TrainEvent.gradReset]

/-- Modelled from the spec: the trainer processes one batch with forward
pass, loss computation, backward pass, optimizer step and gradient reset,
in that fixed order. -/
def trainBatch (s : TrainerState) (x y : List ℚ) :
    TrainerState × List TrainEvent :=
  runPhase TrainEvent.gradReset resetPhase
    (runPhase TrainEvent.optimStep stepPhase
      (runPhase TrainEvent.backwardPass backwardPhase
        (runPhase TrainEvent.lossComp (lossPhase y)
          (runPhase TrainEvent.forwardPass (forwardPhase x) (s, [])))))

/-- An epoch: the batches in order, concatenating their event traces. -/
def trainEpoch (s : TrainerState) : List (List ℚ × List ℚ) →
    TrainerState × List TrainEvent
  | [] => (s, [])
  | b :: bs =>
    let r := trainBatch s b.1 b.2
    let rest := trainEpoch r.1 bs
    (rest.1, r.2 ++ rest.2)

theorem trainEpoch_trace (bs : List (List ℚ × List ℚ)) :
    ∀ s : TrainerState,
      (trainEpoch s bs).2 = (List.replicate bs.length batchSchedule).flatten := by
  induction bs with
  | nil => intro s; rfl
  | cons b bs ih =>
    intro s
    show (trainBatch s b.1 b.2).2 ++ (trainEpoch (trainBatch s b.1 b.2).1 bs).2 =
      (List.replicate (bs.length + 1) batchSchedule).flatten
    rw [ih (trainBatch s b.1 b.2).1]
    rfl

/-- Claim C3: the trainer processes each batch with forward pass, loss
computation, backward pass, optimizer step, gradient reset, always in that
fixed order; over an epoch the trace is exactly that schedule repeated per
batch, so no optimizer step or backward pass ever happens out of order
within a batch. -/
theorem claim3_trainer_fixed_phase_order
    (s : TrainerState) (x y : List ℚ) (bs : List (List ℚ × List ℚ)) :
    (trainBatch s x y).2 = batchSchedule ∧
      (trainEpoch s bs).2 = (List.replicate bs.length batchSchedule).flatten :=
  ⟨rfl, trainEpoch_trace bs s⟩

end Walnut
